import Mathlib

/-!
Verification development for the kusanagi editor-extension core:
the edit-region tracker (`InsertionTracker`: `track`, `remove`,
`applyResult`, `adjustForChanges`, `shiftRange`) and the enclosing-block
locator (`getEnclosingBlock`).

Positions and ranges are modelled with integer coordinates (lines and
UTF-16-style columns); document and inserted text as lists of characters.
Splitting on newlines mirrors JavaScript's `String.split("\n")`.
-/

/-- A line/column position, ordered lexicographically.  Mirrors
`vscode.Position`; coordinates are integers so that intermediate
deltas may be negative, as in the source's arithmetic. -/
structure Pos where
  line : Int
  character : Int
deriving DecidableEq, Repr

/-- Mirrors `vscode.Position.translate`: add a line delta and a character delta. -/
def Pos.translate (p : Pos) (dl dc : Int) : Pos :=
  ⟨p.line + dl, p.character + dc⟩

/-- A document range with `start` and `stop` (the source's `end`). -/
structure Rng where
  start : Pos
  stop : Pos
deriving DecidableEq, Repr

/-- One content change of a `TextDocumentChangeEvent`: the replaced
range and the inserted text. -/
structure ContentChange where
  range : Rng
  text : List Char
deriving DecidableEq, Repr

/-- JavaScript's `str.split("\n")` on a character list: the list of
newline-separated segments.  Never empty; `splitLines [] = [[]]`. -/
def splitLines : List Char → List (List Char)
  | [] => [[]]
  | c :: rest =>
    if c = '\n' then [] :: splitLines rest
    else
      match splitLines rest with
      | [] => [[c]]
      | l :: ls => (c :: l) :: ls

/-- Net line-count shift of a content change:
(number of newlines in the inserted text) −
(replaced range end line − replaced range start line).
This is the `lineDelta` computed in `InsertionTracker.shiftRange`. -/
def lineDelta (change : ContentChange) : Int :=
  (((splitLines change.text).length : Int) - 1)
    - (change.range.stop.line - change.range.start.line)

/-- Mirrors `InsertionTracker.shiftRange`: rebase one range through one content
change, following the source's four ordered cases. -/
def shiftRange (range : Rng) (change : ContentChange) : Rng :=
  let changeStart := change.range.start
  let changeEnd := change.range.stop
  let newText := change.text
  let newLines := splitLines newText
  let addedLineCount : Int := (newLines.length : Int) - 1
  let removedLineCount : Int := changeEnd.line - changeStart.line
  let delta : Int := addedLineCount - removedLineCount
  -- If the change is entirely after our range, no adjustment needed
  if changeStart.line > range.stop.line ∨
      (changeStart.line = range.stop.line ∧ changeStart.character ≥ range.stop.character) then
    range
  -- If the change is entirely before our range start line
  else if changeEnd.line < range.start.line then
    ⟨range.start.translate delta 0, range.stop.translate delta 0⟩
  -- If the change ends on the same line as our range starts
  else if changeEnd.line = range.start.line ∧ changeEnd.character ≤ range.start.character then
    let lastNewLineLength : Int := (newLines.getLastD []).length
    if addedLineCount = 0 then
      let charDelta := lastNewLineLength - (changeEnd.character - changeStart.character)
      let newStartChar := range.start.character + charDelta
      let newEndChar :=
        if range.start.line = range.stop.line then range.stop.character + charDelta
        else range.stop.character
      ⟨⟨range.start.line + delta, newStartChar⟩, ⟨range.stop.line + delta, newEndChar⟩⟩
    else
      let newStartChar := range.start.character - changeEnd.character + lastNewLineLength
      let newEndChar :=
        if range.start.line = range.stop.line then
          range.stop.character - changeEnd.character + lastNewLineLength
        else range.stop.character
      ⟨⟨range.start.line + delta, newStartChar⟩, ⟨range.stop.line + delta, newEndChar⟩⟩
  -- The change overlaps with our range — keep the range as-is, best effort
  else
    ⟨⟨max 0 (range.start.line + delta), range.start.character⟩,
     ⟨max 0 (range.stop.line + delta), range.stop.character⟩⟩

/-- A pending insertion tracked by `InsertionTracker`. -/
structure PendingInsertion where
  id : String
  uri : String
  range : Rng
deriving DecidableEq, Repr

/-- The tracker's `pending` map: an insertion-ordered association list
keyed by id, mirroring a JavaScript `Map`. -/
def TrackerState := List (String × PendingInsertion)

instance : DecidableEq TrackerState := by
  unfold TrackerState; infer_instance

/-- JavaScript `Map.set`: replace in place if the key exists, else append. -/
def mapSet (k : String) (v : PendingInsertion) : TrackerState → TrackerState
  | [] => [(k, v)]
  | (k', v') :: rest =>
    if k' = k then (k, v) :: rest else (k', v') :: mapSet k v rest

/-- JavaScript `Map.get`. -/
def mapGet (k : String) : TrackerState → Option PendingInsertion
  | [] => none
  | (k', v') :: rest => if k' = k then some v' else mapGet k rest

/-- JavaScript `Map.delete`. -/
def mapDelete (k : String) : TrackerState → TrackerState
  | [] => []
  | (k', v') :: rest =>
    if k' = k then rest else (k', v') :: mapDelete k rest

/-- Mirrors `InsertionTracker.track`: `this.pending.set(id, { id, uri, range })`. -/
def track (s : TrackerState) (id uri : String) (range : Rng) : TrackerState :=
  mapSet id ⟨id, uri, range⟩ s

/-- Mirrors `InsertionTracker.remove`: `this.pending.delete(id)`. -/
def removeId (s : TrackerState) (id : String) : TrackerState :=
  mapDelete id s

/-- Mirrors `InsertionTracker.activeCount`: `this.pending.size`. -/
def activeCount (s : TrackerState) : Nat := s.length

/-- A `TextDocumentChangeEvent`: the document's uri and its ordered
content changes. -/
structure MutationEvent where
  uri : String
  contentChanges : List ContentChange

/-- Mirrors `InsertionTracker.adjustForChanges`: every pending entry whose uri
matches has its range rebased through each change in order. -/
def adjustForChanges (s : TrackerState) (e : MutationEvent) : TrackerState :=
  s.map fun p =>
    if p.2.uri = e.uri then
      (p.1, { p.2 with range := e.contentChanges.foldl shiftRange p.2.range })
    else p

/-- Host-environment outcomes that `InsertionTracker.applyResult`
depends on: whether the target document is open, whether a visible
editor shows it, and whether the editor edit succeeds. -/
structure ApplyEnv where
  docFound : Bool
  editorFound : Bool
  editSuccess : Bool

/-- Result of `applyResult`: the returned boolean, the new pending map,
and the replace request issued to the editor (range and text), if any. -/
structure ApplyOutcome where
  success : Bool
  state : TrackerState
  replaceCall : Option (Rng × String)
deriving DecidableEq

/-- Mirrors `InsertionTracker.applyResult`: look up the entry; if absent return
`false`; if the document or editor cannot be resolved, delete the entry
and return `false`; otherwise replace the entry's current range with the
text, delete the entry, and return the edit's success. -/
def applyResult (s : TrackerState) (id : String) (text : String)
    (env : ApplyEnv) : ApplyOutcome :=
  match mapGet id s with
  | none => ⟨false, s, none⟩
  | some entry =>
    if !env.docFound then ⟨false, mapDelete id s, none⟩
    else if !env.editorFound then ⟨false, mapDelete id s, none⟩
    else ⟨env.editSuccess, mapDelete id s, some (entry.range, text)⟩

/-- Backward scan of `getEnclosingBlock` (source lines 125–137):
starting at `offset - 1` and moving left, each `}` increments `depth`,
a `{` at positive depth decrements it, and the first `{` seen at depth
0 is the block start.  The first argument of the recursion counts the
positions still to scan, so position `i - 1` is examined at argument `i`. -/
def findOpenAux (text : List Char) : Nat → Nat → Option Nat
  | 0, _ => none
  | i + 1, depth =>
    let c := text.getD i ' '
    if c = '}' then findOpenAux text i (depth + 1)
    else if c = '{' then
      if depth = 0 then some i else findOpenAux text i (depth - 1)
    else findOpenAux text i depth

/-- The backward scan entered at `offset` with depth 0. -/
def findOpen (text : List Char) (offset : Nat) : Option Nat :=
  findOpenAux text offset 0

/-- Fallback forward scan (source lines 140–148): from `offset` to the
next newline, looking for a `{`. -/
def findOpenFwdAux : List Char → Nat → Option Nat
  | [], _ => none
  | c :: rest, i =>
    if c = '\n' then none
    else if c = '{' then some i
    else findOpenFwdAux rest (i + 1)

/-- The forward same-line scan entered at `offset`. -/
def findOpenFwd (text : List Char) (offset : Nat) : Option Nat :=
  findOpenFwdAux (text.drop offset) offset

/-- The block start chosen by `getEnclosingBlock`: the backward scan's
result, else the same-line forward scan's. -/
def blockStartOf (text : List Char) (offset : Nat) : Option Nat :=
  match findOpen text offset with
  | some p => some p
  | none => findOpenFwd text offset

/-- Matching-close scan of `getEnclosingBlock` (source lines 153–164):
from just after the block start with depth 1, `{` increments and `}`
decrements; when depth reaches 0 the result is the index one past that
closing brace. -/
def findCloseAux : List Char → Nat → Nat → Option Nat
  | [], _, _ => none
  | c :: rest, depth, i =>
    if c = '{' then findCloseAux rest (depth + 1) (i + 1)
    else if c = '}' then
      if depth = 1 then some (i + 1) else findCloseAux rest (depth - 1) (i + 1)
    else findCloseAux rest depth (i + 1)

/-- The close scan entered just after `blockStart`. -/
def findClose (text : List Char) (blockStart : Nat) : Option Nat :=
  findCloseAux (text.drop (blockStart + 1)) 1 (blockStart + 1)

/-- Mirrors `document.positionAt(off).line`: the number of newlines before `off`. -/
def lineOfOffset (text : List Char) (off : Nat) : Nat :=
  (text.take off).count '\n'

/-- Character offset of the start of line `l` (each earlier line
contributes its length plus its newline). -/
def lineStartOffset (lines : List (List Char)) (l : Nat) : Nat :=
  ((lines.take l).map List.length).sum + l

/-- Trailing whitespace removed by JavaScript's `trimEnd`. -/
def isWsChar (c : Char) : Bool :=
  c = ' ' || c = '\t' || c = '\r'

/-- Mirrors `lineText.trimEnd()` from the extension loop. -/
def trimEnd (l : List Char) : List Char :=
  (l.reverse.dropWhile isWsChar).reverse

/-- Whether the upward extension of `getEnclosingBlock` (source lines
173–184) continues past line `l`: after trimming trailing whitespace
the line is non-empty and does not end in `;`, `}` or `{`. -/
def qualLine (lines : List (List Char)) (l : Nat) : Bool :=
  match (trimEnd (lines.getD l [])).getLast? with
  | none => false
  | some c => !(c = ';' || c = '}' || c = '{')

/-- The upward-extension loop: starting from the opening brace's line,
walk to earlier lines while they qualify; the first non-qualifying line
is excluded. -/
def extendUp (qual : Nat → Bool) : Nat → Nat
  | 0 => 0
  | l + 1 => if qual l then extendUp qual l else l + 1

/-- Result of `getEnclosingBlock`: the block text and its range. -/
structure BlockResult where
  text : List Char
  range : Rng
deriving DecidableEq, Repr

/-- Mirrors `getEnclosingBlock` on raw text and a cursor offset: backward (or
same-line forward) scan for the opening brace, forward scan for the
matching close, upward extension over declaration lines, and the
resulting range from column 0 of the first line through the end of the
closing brace's line, with the exact substring of that range. -/
def locate (text : List Char) (offset : Nat) : Option BlockResult :=
  match blockStartOf text offset with
  | none => none
  | some bs =>
    match findClose text bs with
    | none => none
    | some be =>
      let lines := splitLines text
      let startLine := lineOfOffset text bs
      let firstLine := extendUp (qualLine lines) startLine
      let eL := lineOfOffset text be
      let eLen := (lines.getD eL []).length
      let rStart := lineStartOffset lines firstLine
      let rEnd := lineStartOffset lines eL + eLen
      some ⟨(text.take rEnd).drop rStart,
            ⟨⟨(firstLine : Int), 0⟩, ⟨(eL : Int), (eLen : Int)⟩⟩⟩

/-- Column delta that the same-line case of `shiftRange` applies to the
tracked start (source lines 141–158): with no added lines, the length of
the inserted text minus the width replaced on the line; with added
lines, the last inserted line length minus the replaced end column. -/
def shiftColDelta (change : ContentChange) : Int :=
  let newLines := splitLines change.text
  let lastLen : Int := ((newLines.getLastD []).length : Int)
  if (newLines.length : Int) - 1 = 0 then
    lastLen - (change.range.stop.character - change.range.start.character)
  else lastLen - change.range.stop.character

/-- Concrete tracker state used in the `applyResult` witness. -/
def applyDemoState : TrackerState := [("a", ⟨"a", "u", ⟨⟨0, 0⟩, ⟨1, 1⟩⟩⟩)]

/-- Nested-braces example document: an outer block containing an inner
block, over five lines. -/
def nestedText : List Char := "outer() \x7b\n  inner() \x7b\n    x;\n  \x7d\n\x7d".toList

/-- Example document with a two-line function signature above the
block, preceded by a line ending in a semicolon. -/
def sigText : List Char := "int f();\nvoid g(int a,\n       int b)\n\x7b\n  x;\n\x7d".toList

/-! ### Helper lemmas -/

theorem splitLines_ne_nil (s : List Char) : splitLines s ≠ [] := by
  induction s with
  | nil => simp [splitLines]
  | cons c rest ih =>
    simp only [splitLines]
    split
    · simp
    · match h : splitLines rest with
      | [] => simp
      | l :: ls => simp

theorem splitLines_length_pos (s : List Char) : 0 < (splitLines s).length :=
  List.length_pos.mpr (splitLines_ne_nil s)

theorem mapGet_mapSet_self (k : String) (v : PendingInsertion) (s : TrackerState) :
    mapGet k (mapSet k v s) = some v := by
  induction s with
  | nil => simp [mapSet, mapGet]
  | cons p rest ih =>
    obtain ⟨k', v'⟩ := p
    by_cases h : k' = k
    · simp [mapSet, h, mapGet]
    · simp [mapSet, h, mapGet, ih]

theorem length_mapSet_of_get (k : String) (v w : PendingInsertion) (s : TrackerState)
    (h : mapGet k s = some w) : (mapSet k v s).length = s.length := by
  induction s with
  | nil => simp [mapGet] at h
  | cons p rest ih =>
    obtain ⟨k', v'⟩ := p
    by_cases hk : k' = k
    · simp [mapSet, hk]
    · simp only [mapGet, if_neg hk] at h
      simp [mapSet, hk, ih h]

theorem mapGet_eq_none_of_not_mem (k : String) (s : TrackerState)
    (h : k ∉ s.map Prod.fst) : mapGet k s = none := by
  induction s with
  | nil => rfl
  | cons p rest ih =>
    obtain ⟨k', v'⟩ := p
    simp only [List.map, List.mem_cons] at h
    push_neg at h
    have hne : ¬(k' = k) := fun hh => h.1 hh.symm
    simp [mapGet, hne, ih h.2]

theorem mapGet_mapDelete_self (k : String) (s : TrackerState)
    (hnd : (s.map Prod.fst).Nodup) : mapGet k (mapDelete k s) = none := by
  induction s with
  | nil => rfl
  | cons p rest ih =>
    obtain ⟨k', v'⟩ := p
    simp only [List.map, List.nodup_cons] at hnd
    by_cases hk : k' = k
    · subst hk
      simp only [mapDelete, if_pos rfl]
      exact mapGet_eq_none_of_not_mem _ _ hnd.1
    · simp [mapDelete, hk, mapGet, ih hnd.2]

theorem length_adjustForChanges (s : TrackerState) (e : MutationEvent) :
    (adjustForChanges s e).length = s.length := by
  simp [adjustForChanges]

theorem extendUp_le (q : Nat → Bool) (n : Nat) : extendUp q n ≤ n := by
  induction n with
  | zero => exact Nat.le_refl 0
  | succ m ih =>
    simp only [extendUp]
    split
    · exact Nat.le_trans ih (Nat.le_succ m)
    · exact Nat.le_refl _

theorem extendUp_qual (q : Nat → Bool) (n : Nat) :
    ∀ l, extendUp q n ≤ l → l < n → q l = true := by
  induction n with
  | zero => intro l _ h2; omega
  | succ m ih =>
    intro l h1 h2
    simp only [extendUp] at h1
    by_cases hq : q m = true
    · rw [if_pos hq] at h1
      rcases Nat.lt_or_ge l m with hl | hl
      · exact ih l h1 hl
      · have : l = m := by omega
        subst this
        exact hq
    · rw [if_neg hq] at h1
      omega

theorem extendUp_min (q : Nat → Bool) (n : Nat) :
    extendUp q n = 0 ∨ q (extendUp q n - 1) = false := by
  induction n with
  | zero => exact Or.inl rfl
  | succ m ih =>
    simp only [extendUp]
    by_cases hq : q m = true
    · rw [if_pos hq]
      exact ih
    · rw [if_neg hq]
      right
      simpa using hq

/-! ### Claims -/

/-- C1 (counterexample): calling `track` twice with the same id is not
rejected: the second call is accepted and overwrites the stored entry. -/
theorem track_duplicate_accepted :
    track (track [] "a" "u" ⟨⟨0, 0⟩, ⟨0, 0⟩⟩) "a" "u" ⟨⟨1, 1⟩, ⟨2, 2⟩⟩
      = [("a", ⟨"a", "u", ⟨⟨1, 1⟩, ⟨2, 2⟩⟩⟩)] ∧
    mapGet "a" (track (track [] "a" "u" ⟨⟨0, 0⟩, ⟨0, 0⟩⟩) "a" "u" ⟨⟨1, 1⟩, ⟨2, 2⟩⟩)
      = some ⟨"a", "u", ⟨⟨1, 1⟩, ⟨2, 2⟩⟩⟩ := by
  decide

/-- C1 (amended): `track` with an already-tracked id is accepted and
overwrites the existing entry; the pending count does not change. -/
theorem track_duplicate_overwrites (s : TrackerState) (id uri : String) (r : Rng) :
    mapGet id (track s id uri r) = some ⟨id, uri, r⟩ ∧
    (mapGet id s ≠ none → activeCount (track s id uri r) = activeCount s) := by
  constructor
  · exact mapGet_mapSet_self id ⟨id, uri, r⟩ s
  · intro h
    match hg : mapGet id s with
    | none => exact absurd hg h
    | some w => exact length_mapSet_of_get id ⟨id, uri, r⟩ w s hg

theorem track_duplicate_overwrites_witness :
    mapGet "a" (track [("a", ⟨"a", "u", ⟨⟨0, 0⟩, ⟨0, 0⟩⟩⟩)] "a" "u" ⟨⟨1, 1⟩, ⟨2, 2⟩⟩)
      = some ⟨"a", "u", ⟨⟨1, 1⟩, ⟨2, 2⟩⟩⟩ ∧
    activeCount (track [("a", ⟨"a", "u", ⟨⟨0, 0⟩, ⟨0, 0⟩⟩⟩)] "a" "u" ⟨⟨1, 1⟩, ⟨2, 2⟩⟩)
      = activeCount [("a", ⟨"a", "u", ⟨⟨0, 0⟩, ⟨0, 0⟩⟩⟩)] :=
  ⟨(track_duplicate_overwrites [("a", ⟨"a", "u", ⟨⟨0, 0⟩, ⟨0, 0⟩⟩⟩)] "a" "u" ⟨⟨1, 1⟩, ⟨2, 2⟩⟩).1,
   (track_duplicate_overwrites [("a", ⟨"a", "u", ⟨⟨0, 0⟩, ⟨0, 0⟩⟩⟩)] "a" "u" ⟨⟨1, 1⟩, ⟨2, 2⟩⟩).2
     (by decide)⟩

/-- C4: a content change whose replaced range starts strictly after the
tracked range ends (by line, then column) leaves the range unchanged. -/
theorem rebase_after_unchanged (R : Rng) (ch : ContentChange)
    (h : ch.range.start.line > R.stop.line ∨
      (ch.range.start.line = R.stop.line ∧ ch.range.start.character > R.stop.character)) :
    shiftRange R ch = R := by
  have hg : ch.range.start.line > R.stop.line ∨
      (ch.range.start.line = R.stop.line ∧ ch.range.start.character ≥ R.stop.character) := by
    rcases h with h | ⟨h1, h2⟩
    · exact Or.inl h
    · exact Or.inr ⟨h1, le_of_lt h2⟩
  simp only [shiftRange]
  rw [if_pos hg]

theorem rebase_after_unchanged_witness :
    shiftRange ⟨⟨1, 0⟩, ⟨2, 3⟩⟩ ⟨⟨⟨5, 0⟩, ⟨6, 0⟩⟩, "zz".toList⟩ = ⟨⟨1, 0⟩, ⟨2, 3⟩⟩ :=
  rebase_after_unchanged ⟨⟨1, 0⟩, ⟨2, 3⟩⟩ ⟨⟨⟨5, 0⟩, ⟨6, 0⟩⟩, "zz".toList⟩ (by decide)

/-- C2: a change ending strictly before the tracked range's start line
translates both endpoints by the line delta and leaves columns unchanged;
the spec's two-inserted-lines scenario rebases (10,0)–(12,5) to (12,0)–(14,5). -/
theorem rebase_before_shifts_lines (R : Rng) (ch : ContentChange)
    (hR : R.start.line ≤ R.stop.line)
    (hc : ch.range.start.line ≤ ch.range.stop.line)
    (h : ch.range.stop.line < R.start.line) :
    shiftRange R ch =
      ⟨⟨R.start.line + lineDelta ch, R.start.character⟩,
       ⟨R.stop.line + lineDelta ch, R.stop.character⟩⟩ ∧
    adjustForChanges (track [] "r1" "d" ⟨⟨10, 0⟩, ⟨12, 5⟩⟩)
        ⟨"d", [⟨⟨⟨2, 0⟩, ⟨2, 0⟩⟩, "a\nb\n".toList⟩]⟩
      = [("r1", ⟨"r1", "d", ⟨⟨12, 0⟩, ⟨14, 5⟩⟩⟩)] := by
  refine ⟨?_, by decide⟩
  have hg : ¬(ch.range.start.line > R.stop.line ∨
      (ch.range.start.line = R.stop.line ∧ ch.range.start.character ≥ R.stop.character)) := by
    push_neg
    omega
  simp only [shiftRange]
  rw [if_neg hg, if_pos h]
  simp [Pos.translate, lineDelta]

theorem rebase_before_shifts_lines_witness :
    shiftRange ⟨⟨10, 0⟩, ⟨12, 5⟩⟩ ⟨⟨⟨2, 0⟩, ⟨2, 0⟩⟩, "a\nb\n".toList⟩ =
      ⟨⟨10 + lineDelta ⟨⟨⟨2, 0⟩, ⟨2, 0⟩⟩, "a\nb\n".toList⟩, 0⟩,
       ⟨12 + lineDelta ⟨⟨⟨2, 0⟩, ⟨2, 0⟩⟩, "a\nb\n".toList⟩, 5⟩⟩ :=
  (rebase_before_shifts_lines ⟨⟨10, 0⟩, ⟨12, 5⟩⟩ ⟨⟨⟨2, 0⟩, ⟨2, 0⟩⟩, "a\nb\n".toList⟩
    (by decide) (by decide) (by decide)).1

/-- C3 (counterexample): an empty replaced range that coincides with an
empty tracked range satisfies the same-line-end condition, yet the code
treats it as entirely-after and returns the range unchanged instead of
shifting the columns by the column delta (here 1). -/
theorem rebase_sameline_claim_fails :
    shiftRange ⟨⟨0, 0⟩, ⟨0, 0⟩⟩ ⟨⟨⟨0, 0⟩, ⟨0, 0⟩⟩, "x".toList⟩ = ⟨⟨0, 0⟩, ⟨0, 0⟩⟩ ∧
    shiftColDelta ⟨⟨⟨0, 0⟩, ⟨0, 0⟩⟩, "x".toList⟩ = 1 ∧
    shiftRange ⟨⟨0, 0⟩, ⟨0, 0⟩⟩ ⟨⟨⟨0, 0⟩, ⟨0, 0⟩⟩, "x".toList⟩ ≠ ⟨⟨0, 1⟩, ⟨0, 1⟩⟩ := by
  decide

/-- C3 (amended): when the replaced range ends on the tracked start's
line at or before its column, and the entirely-after case does not
apply, the start column is shifted by the column delta; a single-line
range's end column shifts by the same delta, a multi-line range's end
column is unchanged; both lines are translated by the line delta. -/
theorem rebase_sameline_anchors_start (R : Rng) (ch : ContentChange)
    (hline : ch.range.stop.line = R.start.line)
    (hchar : ch.range.stop.character ≤ R.start.character)
    (hnotafter : ¬(ch.range.start.line > R.stop.line ∨
      (ch.range.start.line = R.stop.line ∧ ch.range.start.character ≥ R.stop.character))) :
    shiftRange R ch =
      ⟨⟨R.start.line + lineDelta ch, R.start.character + shiftColDelta ch⟩,
       ⟨R.stop.line + lineDelta ch,
        if R.start.line = R.stop.line then R.stop.character + shiftColDelta ch
        else R.stop.character⟩⟩ := by
  have hg2 : ¬(ch.range.stop.line < R.start.line) := by omega
  have hmk : ∀ (a b c d e f g h : Int), a = e → b = f → c = g → d = h →
      (⟨⟨a, b⟩, ⟨c, d⟩⟩ : Rng) = ⟨⟨e, f⟩, ⟨g, h⟩⟩ := by
    intro a b c d e f g h h1 h2 h3 h4
    subst h1; subst h2; subst h3; subst h4; rfl
  simp only [shiftRange, shiftColDelta, lineDelta]
  rw [if_neg hnotafter, if_neg hg2, if_pos ⟨hline, hchar⟩]
  by_cases hadd : ((splitLines ch.text).length : Int) - 1 = 0
  · rw [if_pos hadd, if_pos hadd]
  · rw [if_neg hadd, if_neg hadd]
    by_cases hsl : R.start.line = R.stop.line
    · rw [if_pos hsl, if_pos hsl]
      apply hmk <;> ring
    · rw [if_neg hsl, if_neg hsl]
      apply hmk <;> ring

theorem rebase_sameline_anchors_start_witness :
    shiftRange ⟨⟨3, 4⟩, ⟨5, 2⟩⟩ ⟨⟨⟨3, 0⟩, ⟨3, 2⟩⟩, "ab\ncde".toList⟩ = ⟨⟨4, 5⟩, ⟨6, 2⟩⟩ :=
  (rebase_sameline_anchors_start ⟨⟨3, 4⟩, ⟨5, 2⟩⟩ ⟨⟨⟨3, 0⟩, ⟨3, 2⟩⟩, "ab\ncde".toList⟩
    (by decide) (by decide) (by decide)).trans (by decide)

/-- C5 (counterexample): in the overlap case the translated lines are
clamped at zero, so the result is not always the plain line translation
the claim states: deleting five lines overlapping a range on line 0
yields line 0, not line −5. -/
theorem rebase_overlap_claim_fails :
    shiftRange ⟨⟨0, 0⟩, ⟨0, 5⟩⟩ ⟨⟨⟨0, 0⟩, ⟨5, 0⟩⟩, []⟩ = ⟨⟨0, 0⟩, ⟨0, 5⟩⟩ ∧
    lineDelta ⟨⟨⟨0, 0⟩, ⟨5, 0⟩⟩, []⟩ = -5 ∧
    shiftRange ⟨⟨0, 0⟩, ⟨0, 5⟩⟩ ⟨⟨⟨0, 0⟩, ⟨5, 0⟩⟩, []⟩ ≠
      ⟨⟨0 + lineDelta ⟨⟨⟨0, 0⟩, ⟨5, 0⟩⟩, []⟩, 0⟩, ⟨0 + lineDelta ⟨⟨⟨0, 0⟩, ⟨5, 0⟩⟩, []⟩, 5⟩⟩ := by
  decide

/-- C5 (amended): in the overlap case both endpoint lines are translated
by the line delta and clamped below at zero, columns are unchanged, and
rebasing never drops a pending edit (the tracker keeps every entry). -/
theorem rebase_overlap_clamped (R : Rng) (ch : ContentChange)
    (h1 : ¬(ch.range.start.line > R.stop.line ∨
      (ch.range.start.line = R.stop.line ∧ ch.range.start.character ≥ R.stop.character)))
    (h2 : ¬(ch.range.stop.line < R.start.line))
    (h3 : ¬(ch.range.stop.line = R.start.line ∧ ch.range.stop.character ≤ R.start.character)) :
    shiftRange R ch =
      ⟨⟨max 0 (R.start.line + lineDelta ch), R.start.character⟩,
       ⟨max 0 (R.stop.line + lineDelta ch), R.stop.character⟩⟩ ∧
    ∀ s e, activeCount (adjustForChanges s e) = activeCount s := by
  refine ⟨?_, fun s e => length_adjustForChanges s e⟩
  simp only [shiftRange, lineDelta]
  rw [if_neg h1, if_neg h2, if_neg h3]

theorem rebase_overlap_clamped_witness :
    shiftRange ⟨⟨0, 0⟩, ⟨0, 5⟩⟩ ⟨⟨⟨0, 2⟩, ⟨5, 0⟩⟩, []⟩ = ⟨⟨0, 0⟩, ⟨0, 5⟩⟩ :=
  ((rebase_overlap_clamped ⟨⟨0, 0⟩, ⟨0, 5⟩⟩ ⟨⟨⟨0, 2⟩, ⟨5, 0⟩⟩, []⟩
    (by decide) (by decide) (by decide)).1).trans (by decide)

/-- C10: one rebase step keeps both endpoints' lines and columns
non-negative whenever the tracked range and the replaced range are
well-formed with non-negative coordinates; in particular the overlap
case clamps translated lines at zero. -/
theorem rebase_nonneg (R : Rng) (ch : ContentChange)
    (hR1 : 0 ≤ R.start.line) (hR2 : 0 ≤ R.start.character)
    (hR3 : 0 ≤ R.stop.line) (hR4 : 0 ≤ R.stop.character)
    (hRo : R.start.line < R.stop.line ∨
      (R.start.line = R.stop.line ∧ R.start.character ≤ R.stop.character))
    (hc1 : 0 ≤ ch.range.start.line) (hc2 : 0 ≤ ch.range.start.character)
    (hc3 : 0 ≤ ch.range.stop.line) (hc4 : 0 ≤ ch.range.stop.character)
    (hco : ch.range.start.line < ch.range.stop.line ∨
      (ch.range.start.line = ch.range.stop.line ∧
        ch.range.start.character ≤ ch.range.stop.character)) :
    0 ≤ (shiftRange R ch).start.line ∧ 0 ≤ (shiftRange R ch).start.character ∧
    0 ≤ (shiftRange R ch).stop.line ∧ 0 ≤ (shiftRange R ch).stop.character := by
  have hlen : (1 : Int) ≤ ((splitLines ch.text).length : Int) := by
    exact_mod_cast splitLines_length_pos ch.text
  have hlast : (0 : Int) ≤ (((splitLines ch.text).getLastD []).length : Int) := by
    exact_mod_cast Nat.zero_le _
  simp only [shiftRange, Pos.translate]
  split_ifs <;>
    refine ⟨?_, ?_, ?_, ?_⟩ <;>
    (try dsimp only) <;>
    first
      | exact le_max_left 0 _
      | omega

theorem rebase_nonneg_witness :
    0 ≤ (shiftRange ⟨⟨1, 2⟩, ⟨3, 4⟩⟩ ⟨⟨⟨2, 1⟩, ⟨2, 3⟩⟩, "q".toList⟩).start.line ∧
    0 ≤ (shiftRange ⟨⟨1, 2⟩, ⟨3, 4⟩⟩ ⟨⟨⟨2, 1⟩, ⟨2, 3⟩⟩, "q".toList⟩).start.character ∧
    0 ≤ (shiftRange ⟨⟨1, 2⟩, ⟨3, 4⟩⟩ ⟨⟨⟨2, 1⟩, ⟨2, 3⟩⟩, "q".toList⟩).stop.line ∧
    0 ≤ (shiftRange ⟨⟨1, 2⟩, ⟨3, 4⟩⟩ ⟨⟨⟨2, 1⟩, ⟨2, 3⟩⟩, "q".toList⟩).stop.character :=
  rebase_nonneg ⟨⟨1, 2⟩, ⟨3, 4⟩⟩ ⟨⟨⟨2, 1⟩, ⟨2, 3⟩⟩, "q".toList⟩
    (by decide) (by decide) (by decide) (by decide) (by decide)
    (by decide) (by decide) (by decide) (by decide) (by decide)

/-- C6: `applyResult` reports `false` when the id is absent; when
present, the id is removed on every outcome, the returned boolean is the
write's success (and requires document and editor to resolve), and the
issued replace targets the entry's current — rebased — range, not the
range captured at track time. -/
theorem applyResult_contract (s : TrackerState) (id text : String) (env : ApplyEnv)
    (hnd : (s.map Prod.fst).Nodup) :
    (mapGet id s = none → applyResult s id text env = ⟨false, s, none⟩) ∧
    (∀ entry, mapGet id s = some entry →
      mapGet id (applyResult s id text env).state = none ∧
      ((applyResult s id text env).success = true ↔
        env.docFound = true ∧ env.editorFound = true ∧ env.editSuccess = true) ∧
      (env.docFound = true → env.editorFound = true →
        (applyResult s id text env).replaceCall = some (entry.range, text))) ∧
    (∀ uri r0 ev, ev.uri = uri → env.docFound = true → env.editorFound = true →
      (applyResult (adjustForChanges (track [] id uri r0) ev) id text env).replaceCall
        = some (ev.contentChanges.foldl shiftRange r0, text)) := by
  obtain ⟨d, ed, x⟩ := env
  refine ⟨?_, ?_, ?_⟩
  · intro h
    simp [applyResult, h]
  · intro entry h
    refine ⟨?_, ?_, ?_⟩
    · cases d <;> cases ed <;>
        simp [applyResult, h, mapGet_mapDelete_self id s hnd]
    · cases d <;> cases ed <;> cases x <;> simp [applyResult, h]
    · intro hd he
      subst hd; subst he
      simp [applyResult, h]
  · intro uri r0 ev huri hd he
    subst hd; subst he
    have htrack : adjustForChanges (track [] id uri r0) ev
        = [(id, ⟨id, uri, ev.contentChanges.foldl shiftRange r0⟩)] := by
      simp [track, mapSet, adjustForChanges, huri.symm]
    rw [htrack]
    simp [applyResult, mapGet]


theorem applyResult_contract_witness :
    (applyResult applyDemoState "a" "t" ⟨true, true, true⟩).replaceCall
      = some (⟨⟨0, 0⟩, ⟨1, 1⟩⟩, "t") ∧
    mapGet "a" (applyResult applyDemoState "a" "t" ⟨true, true, true⟩).state = none ∧
    applyResult applyDemoState "b" "t" ⟨true, true, true⟩ = ⟨false, applyDemoState, none⟩ :=
  ⟨((applyResult_contract applyDemoState "a" "t" ⟨true, true, true⟩ (by decide)).2.1
      ⟨"a", "u", ⟨⟨0, 0⟩, ⟨1, 1⟩⟩⟩ (by decide)).2.2 rfl rfl,
   ((applyResult_contract applyDemoState "a" "t" ⟨true, true, true⟩ (by decide)).2.1
      ⟨"a", "u", ⟨⟨0, 0⟩, ⟨1, 1⟩⟩⟩ (by decide)).1,
   (applyResult_contract applyDemoState "b" "t" ⟨true, true, true⟩ (by decide)).1 (by decide)⟩



theorem findOpen_nested (P C S : List Char) (hC : ∀ c ∈ C, c ≠ '{' ∧ c ≠ '}') :
    ∀ k, k ≤ C.length → findOpen (P ++ '{' :: (C ++ S)) (P.length + 1 + k) = some P.length := by
  intro k
  induction k with
  | zero =>
    intro _
    have hget : (P ++ '{' :: (C ++ S)).getD P.length ' ' = '{' := by
      rw [List.getD_append_right _ _ _ _ (Nat.le_refl _), Nat.sub_self]
      exact List.getD_cons_zero
    show findOpenAux (P ++ '{' :: (C ++ S)) (P.length + 1) 0 = some P.length
    simp only [findOpenAux]
    rw [hget]
    simp
  | succ k ih =>
    intro hk
    have hklt : k < C.length := hk
    have hget : (P ++ '{' :: (C ++ S)).getD (P.length + 1 + k) ' ' = C.getD k ' ' := by
      rw [List.getD_append_right _ _ _ _ (by omega : P.length ≤ P.length + 1 + k)]
      have hidx : P.length + 1 + k - P.length = k + 1 := by omega
      rw [hidx, List.getD_cons_succ]
      exact List.getD_append _ _ _ _ hklt
    have hmem : C.getD k ' ' ∈ C := by
      rw [List.getD_eq_getElem _ _ hklt]
      exact List.getElem_mem hklt
    obtain ⟨hno, hnc⟩ := hC _ hmem
    show findOpenAux (P ++ '{' :: (C ++ S)) ((P.length + 1 + k) + 1) 0 = some P.length
    simp only [findOpenAux]
    rw [hget, if_neg hnc, if_neg hno]
    exact ih (Nat.le_of_succ_le hk)

theorem findOpenAux_braceFree (text : List Char) (h : ∀ c ∈ text, c ≠ '{' ∧ c ≠ '}') :
    ∀ i depth, findOpenAux text i depth = none := by
  intro i
  induction i with
  | zero => intro _; rfl
  | succ i ih =>
    intro depth
    simp only [findOpenAux]
    have hc : text.getD i ' ' ≠ '}' ∧ text.getD i ' ' ≠ '{' := by
      by_cases hlt : i < text.length
      · have hm : text.getD i ' ' ∈ text := by
          rw [List.getD_eq_getElem _ _ hlt]
          exact List.getElem_mem hlt
        obtain ⟨h1, h2⟩ := h _ hm
        exact ⟨h2, h1⟩
      · rw [List.getD_eq_default _ _ (Nat.le_of_not_lt hlt)]
        exact ⟨by decide, by decide⟩
    rw [if_neg hc.1, if_neg hc.2]
    exact ih depth

theorem findOpenFwdAux_braceFree :
    ∀ (l : List Char), (∀ c ∈ l, c ≠ '{') → ∀ i, findOpenFwdAux l i = none := by
  intro l
  induction l with
  | nil => intro _ _; rfl
  | cons c rest ih =>
    intro h i
    simp only [findOpenFwdAux]
    by_cases hnl : c = '\n'
    · rw [if_pos hnl]
    · rw [if_neg hnl, if_neg (h c (List.mem_cons_self c rest))]
      exact ih (fun d hd => h d (List.mem_cons_of_mem c hd)) (i + 1)

/-- C7: the backward scan's depth rule makes the innermost enclosing
pair win: for any context, a cursor inside a brace-free inner pair
resolves to the inner opening brace; on the nested example the located
block is the inner block with its signature line, not the outer one. -/
theorem locate_innermost (P C S : List Char) (k : Nat)
    (hC : ∀ c ∈ C, c ≠ '{' ∧ c ≠ '}') (hk : k ≤ C.length) :
    findOpen (P ++ '{' :: (C ++ S)) (P.length + 1 + k) = some P.length ∧
    locate nestedText 24
      = some ⟨"  inner() \x7b\n    x;\n  \x7d".toList, ⟨⟨1, 0⟩, ⟨3, 3⟩⟩⟩ :=
  ⟨findOpen_nested P C S hC k hk, by decide⟩

theorem locate_innermost_witness :
    findOpen ("\x7b ".toList ++ '{' :: (" ".toList ++ "\x7d \x7d".toList))
        ("\x7b ".toList.length + 1 + 1) = some "\x7b ".toList.length ∧
    locate nestedText 24
      = some ⟨"  inner() \x7b\n    x;\n  \x7d".toList, ⟨⟨1, 0⟩, ⟨3, 3⟩⟩⟩ :=
  locate_innermost "\x7b ".toList " ".toList "\x7d \x7d".toList 1 (by decide) (by decide)

/-- C8: `locate` returns none when the text has no braces for the scans
to find, and when the located opening brace has no matching close
before end of text. -/
theorem locate_none_cases (text : List Char) (off : Nat) :
    ((∀ c ∈ text, c ≠ '{' ∧ c ≠ '}') → locate text off = none) ∧
    (∀ bs, blockStartOf text off = some bs → findClose text bs = none →
      locate text off = none) := by
  constructor
  · intro h
    have h1 : findOpen text off = none := findOpenAux_braceFree text h off 0
    have h2 : findOpenFwd text off = none := by
      apply findOpenFwdAux_braceFree
      intro c hc
      exact (h c (List.drop_subset off text hc)).1
    simp [locate, blockStartOf, h1, h2]
  · intro bs h1 h2
    simp [locate, h1, h2]

theorem locate_none_cases_witness :
    locate "abc".toList 1 = none ∧ locate "f() \x7b\n  x".toList 7 = none :=
  ⟨(locate_none_cases "abc".toList 1).1 (by decide),
   (locate_none_cases "f() \x7b\n  x".toList 7).2 4 (by decide) (by decide)⟩

/-- C9: when a block is found, the range starts at column 0 of the
extended first line — every line strictly between it and the opening
brace's line qualifies (trimmed non-empty, not ending in a terminator)
and the line just above it, if any, does not — and runs through the end
of the closing brace's line; the text is the exact substring of that
range. -/
theorem locate_extends_signature (text : List Char) (off bs be : Nat)
    (h1 : blockStartOf text off = some bs)
    (h2 : findClose text bs = some be) :
    locate text off = some
      ⟨(text.take (lineStartOffset (splitLines text) (lineOfOffset text be)
          + ((splitLines text).getD (lineOfOffset text be) []).length)).drop
          (lineStartOffset (splitLines text)
            (extendUp (qualLine (splitLines text)) (lineOfOffset text bs))),
       ⟨⟨(extendUp (qualLine (splitLines text)) (lineOfOffset text bs) : Int), 0⟩,
        ⟨(lineOfOffset text be : Int),
         (((splitLines text).getD (lineOfOffset text be) []).length : Int)⟩⟩⟩ ∧
    extendUp (qualLine (splitLines text)) (lineOfOffset text bs) ≤ lineOfOffset text bs ∧
    (∀ l, extendUp (qualLine (splitLines text)) (lineOfOffset text bs) ≤ l →
      l < lineOfOffset text bs → qualLine (splitLines text) l = true) ∧
    (extendUp (qualLine (splitLines text)) (lineOfOffset text bs) = 0 ∨
      qualLine (splitLines text)
        (extendUp (qualLine (splitLines text)) (lineOfOffset text bs) - 1) = false) := by
  refine ⟨?_, extendUp_le _ _, extendUp_qual _ _, extendUp_min _ _⟩
  simp [locate, h1, h2]

theorem locate_extends_signature_witness :
    locate sigText 41
      = some ⟨"void g(int a,\n       int b)\n\x7b\n  x;\n\x7d".toList, ⟨⟨1, 0⟩, ⟨5, 1⟩⟩⟩ ∧
    qualLine (splitLines sigText) 0 = false :=
  ⟨((locate_extends_signature sigText 41 37 45 (by decide) (by decide)).1).trans (by decide),
   ((locate_extends_signature sigText 41 37 45 (by decide) (by decide)).2.2.2).resolve_left
     (by decide)⟩
